import Mathlib

/-!
# Verification of the drawsimplifier core (simplify_dxf.py)

Shallow embedding of the segment-graph construction and polyline-extraction
algorithm of `src/drawsimplifier/simplify_dxf.py`.

Modelling choices, all noted at the definition they concern:
* A `Point` is a pair of coordinates *after* `round_point` has been applied
  (the source rounds every coordinate to 6 decimals at ingestion; we work with
  the exact post-rounding values, represented as integers in units of the
  rounding precision, so two points are the same node iff they are equal).
* Python dicts preserve insertion order; the adjacency map is embedded as an
  insertion-ordered association list with unique keys.
* The `while True` loop of `trace_path` is embedded with explicit fuel;
  `none` models a non-terminating run and is proven unreachable for the fuel
  the callers supply.
* `find_endpoints_and_junctions` returns Python `set`s, whose iteration order
  is unspecified; the embedding fixes the graph's insertion order for them
  (the spec itself demands an explicitly ordered container here).  All
  order-independent claims are unaffected by this choice.
-/

namespace DrawSimplifier

/-- A 2D point after coordinate rounding (exact post-rounding coordinates). -/
abbrev Point : Type := Int × Int

/-- An edge key: an ordered pair of points (see `get_edge_key`). -/
abbrev Edge : Type := Point × Point

/-- The adjacency map `Dict[Point, List[Point]]`, as an insertion-ordered
association list (Python dicts preserve insertion order). -/
abbrev Graph : Type := List (Point × List Point)

/-- Lexicographic comparison of coordinate pairs, exactly how Python's
`min`/`max` compare tuples. -/
def pointLe (p q : Point) : Bool :=
  decide (p.1 < q.1 ∨ (p.1 = q.1 ∧ p.2 ≤ q.2))

/-- `get_edge_key(p1, p2)`: the canonical edge key `(min(p1,p2), max(p1,p2))`. -/
def get_edge_key (p1 p2 : Point) : Edge :=
  if pointLe p1 p2 then (p1, p2) else (p2, p1)

/-- Dict lookup `graph[p]`; a missing key behaves as the empty list, which is
observationally what `defaultdict(list)` yields. -/
def lookupG : Graph → Point → List Point
  | [], _ => []
  | (r, ns) :: rest, p => if r = p then ns else lookupG rest p

/-- `graph[p].append(q)` on the insertion-ordered dict: extend the existing
entry, or append a fresh key at the end. -/
def addNeighbor : Graph → Point → Point → Graph
  | [], p, q => [(p, [q])]
  | (r, ns) :: rest, p, q =>
    if r = p then (r, ns ++ [q]) :: rest
    else (r, ns) :: addNeighbor rest p q

/-- One iteration of the loop in `build_graph`: skip zero-length segments,
otherwise add both directed adjacency entries. -/
def build_step (g : Graph) (s : Point × Point) : Graph :=
  if s.1 = s.2 then g else addNeighbor (addNeighbor g s.1 s.2) s.2 s.1

/-- `build_graph`: fold the segment list into the adjacency map. -/
def build_graph (segs : List (Point × Point)) : Graph :=
  segs.foldl build_step []

/-- `find_endpoints_and_junctions`: degree-1 points and degree-3+ points.
The source collects Python sets; the embedding returns the same collections
as duplicate-free lists in graph insertion order. -/
def find_endpoints_and_junctions (g : Graph) : List Point × List Point :=
  ((g.filter (fun ent => ent.2.length == 1)).map (fun ent => ent.1),
   (g.filter (fun ent => decide (3 ≤ ent.2.length))).map (fun ent => ent.1))

/-- The `for neighbor in neighbors` scan inside `trace_path`: the first
neighbor whose edge key is not yet visited. -/
def findNext (visited : List Edge) (current : Point) : List Point → Option Point
  | [] => none
  | n :: rest =>
    if get_edge_key current n ∈ visited then findNext visited current rest
    else some n

/-- All edge keys of the graph, one per adjacency entry (each undirected edge
of a well-formed graph appears once per direction). -/
def EdgeSetOf (g : Graph) : List Edge :=
  g.flatMap (fun ent => ent.2.map (fun n => get_edge_key ent.1 n))

/-- Fuel that always suffices for `trace_path` (each loop iteration visits a
fresh edge key of the graph). -/
def fuelFor (g : Graph) : Nat := (EdgeSetOf g).length + 1

/-- `trace_path`'s `while True` loop.  The source mutates `visited_edges` and
`path`; the embedding threads both.  The edge key of the chosen neighbor is
recorded the moment the neighbor is selected, exactly as in the source.
`none` models running out of fuel and is proven unreachable for `fuelFor`. -/
def trace_path (fuel : Nat) (g : Graph) (endpoints junctions : List Point)
    (path : List Point) (current : Point) (visited : List Edge) :
    Option (List Point × List Edge) :=
  match fuel with
  | 0 => none
  | fuel' + 1 =>
    match findNext visited current (lookupG g current) with
    | none => some (path, visited)
    | some n =>
      if n ∈ endpoints ∨ n ∈ junctions then
        some (path ++ [n], get_edge_key current n :: visited)
      else
        trace_path fuel' g endpoints junctions (path ++ [n]) n
          (get_edge_key current n :: visited)

/-- `trace_path(start, graph, visited_edges, endpoints, junctions)`:
the loop started on the singleton path `[start]`. -/
def trace_path_run (g : Graph) (endpoints junctions : List Point)
    (start : Point) (visited : List Edge) : Option (List Point × List Edge) :=
  trace_path (fuelFor g) g endpoints junctions [start] start visited

/-- The inner loop of each extraction phase: for each listed neighbor of
`s`, if its edge key is unvisited, trace from `s` and keep the traced path
when it has at least two points.  State is `(polylines, visited_edges)`. -/
def runFrom (g : Graph) (eps js : List Point) (s : Point) :
    List Point → List (List Point) × List Edge → List (List Point) × List Edge
  | [], st => st
  | n :: rest, st =>
    if get_edge_key s n ∈ st.2 then runFrom g eps js s rest st
    else
      match trace_path_run g eps js s st.2 with
      | none => runFrom g eps js s rest st
      | some (path, v2) =>
        runFrom g eps js s rest
          (if 2 ≤ path.length then st.1 ++ [path] else st.1, v2)

/-- One extraction phase: iterate the given start points in order. -/
def runPhase (g : Graph) (eps js : List Point) (starts : List Point)
    (st : List (List Point) × List Edge) : List (List Point) × List Edge :=
  starts.foldl (fun st s => runFrom g eps js s (lookupG g s) st) st

/-- `extract_polylines`, with the final visited-edge set kept in the result:
Phase 1 from endpoints, Phase 2 from junctions, Phase 3 from every graph
point in insertion order. -/
def extract_full (g : Graph) : List (List Point) × List Edge :=
  runPhase g (find_endpoints_and_junctions g).1 (find_endpoints_and_junctions g).2
    (g.map (fun ent => ent.1))
    (runPhase g (find_endpoints_and_junctions g).1 (find_endpoints_and_junctions g).2
      (find_endpoints_and_junctions g).2
      (runPhase g (find_endpoints_and_junctions g).1 (find_endpoints_and_junctions g).2
        (find_endpoints_and_junctions g).1
        ([], [])))

/-- `extract_polylines` as the source returns it: just the polyline list. -/
def extract_polylines (g : Graph) : List (List Point) :=
  (extract_full g).1

/-- The edge keys implied by the consecutive point pairs of a polyline. -/
def polyEdges : List Point → List Edge
  | p :: q :: rest => get_edge_key p q :: polyEdges (q :: rest)
  | _ => []

/-- The consecutive point pairs of a polyline, viewed as raw segments
(used to feed a first run's output back into the pipeline). -/
def segsOfPolyline (path : List Point) : List (Point × Point) :=
  path.zip path.tail

/-- Number of occurrences of a point in a neighbor list (multi-edges count
with multiplicity, as in the source's degree computation). -/
def countOcc (a : Point) : List Point → Nat
  | [] => 0
  | x :: rest => (if x = a then 1 else 0) + countOcc a rest

/-- Two polylines share no implied edge. -/
def Disj (a b : List Point) : Prop :=
  ∀ e ∈ polyEdges a, ¬ e ∈ polyEdges b

/-- Distinct edge keys of the graph that are not yet visited: the decreasing
measure of `trace_path`'s loop. -/
def unvisitedCount (g : Graph) (visited : List Edge) : Nat :=
  ((EdgeSetOf g).dedup.filter (fun e => decide (¬ e ∈ visited))).length

/-- What every polyline kept by the extraction loops satisfies: at least two
points, no endpoint or junction strictly inside, and consecutive points
adjacent in the graph. -/
def PathOk (g : Graph) (eps js : List Point) (path : List Point) : Prop :=
  2 ≤ path.length ∧
  (∀ x ∈ path.tail.dropLast, ¬ x ∈ eps ∧ ¬ x ∈ js) ∧
  List.Chain' (fun a b => b ∈ lookupG g a) path

/-- The invariant threaded through the extraction loops: the visited-edge set
is exactly the union of the edges of the collected polylines, distinct
polylines are edge-disjoint, every visited key is a key of the graph, and
every collected polyline is well-formed. -/
def Inv (g : Graph) (eps js : List Point) (st : List (List Point) × List Edge) : Prop :=
  (∀ e, e ∈ st.2 ↔ ∃ path ∈ st.1, e ∈ polyEdges path) ∧
  st.1.Pairwise Disj ∧
  (∀ e ∈ st.2, e ∈ EdgeSetOf g) ∧
  (∀ path ∈ st.1, PathOk g eps js path)

/-- The statistics dict assembled by `simplify_dxf_bytes` (the
`other_entities` count concerns copying of non-LINE DXF entities, outside the
segment model, and is omitted).  The last field is the source's
`reduction_ratio` key. -/
structure Stats where
  original_line_count : Nat
  unique_points : Nat
  endpoints : Nat
  junctions : Nat
  polyline_count : Nat
  reduction_factor : ℚ
  deriving DecidableEq

/-- The core of `simplify_dxf_bytes` on an already-parsed segment list: raise
(`Except.error`) when no LINE entities were found — the check precedes
degeneracy filtering — otherwise build, classify, extract and assemble the
statistics.  The division producing the last statistic is modelled exactly
over `ℚ` (the concrete quotients of interest are exact in floating point). -/
def simplify_core (segs : List (Point × Point)) :
    Except String (List (List Point) × Stats) :=
  if segs.length == 0 then
    Except.error ("No LINE entities found. Nothing to simplify.")
  else
    Except.ok (extract_polylines (build_graph segs),
      { original_line_count := segs.length
        unique_points := (build_graph segs).length
        endpoints := (find_endpoints_and_junctions (build_graph segs)).1.length
        junctions := (find_endpoints_and_junctions (build_graph segs)).2.length
        polyline_count := (extract_polylines (build_graph segs)).length
        reduction_factor :=
          if (extract_polylines (build_graph segs)).length = 0 then 0
          else (segs.length : ℚ) / ((extract_polylines (build_graph segs)).length : ℚ) })

/-- Modelled from the spec: the statistics surface's reduction ratio,
"original segment count ÷ polyline count, undefined/omit when polyline count
is zero" — the omitted case is `none`.  Used only to exhibit the divergence
of the code from this sentence. -/
def reductionRatioSpec (orig polys : Nat) : Option ℚ :=
  if polys = 0 then none else some ((orig : ℚ) / (polys : ℚ))

/-- Concrete input: the simple three-segment chain of §8 of the spec. -/
def chainS : List (Point × Point) :=
  [((0, 0), (1, 0)), ((1, 0), (2, 0)), ((2, 0), (3, 0))]

/-- Concrete input: the branching-junction scenario of C4. -/
def branchS : List (Point × Point) :=
  [((0, 0), (1, 0)), ((1, 0), (2, 0)), ((1, 0), (1, 1))]

/-- Concrete input: the closed square of C8. -/
def squareS : List (Point × Point) :=
  [((0, 0), (1, 0)), ((1, 0), (1, 1)), ((1, 1), (0, 1)), ((0, 1), (0, 0))]

/-- Concrete input: a retraced segment — two parallel copies between the same
two rounded points (C3). -/
def parS : List (Point × Point) :=
  [((0, 0), (1, 0)), ((0, 0), (1, 0))]

/-- Concrete input: one degenerate segment (both rounded endpoints equal). -/
def degS : List (Point × Point) :=
  [((0, 0), (0, 0))]

/-! ## Basic lemmas about the point order and the canonical edge key -/

theorem pointLe_total (p q : Point) : pointLe p q = true ∨ pointLe q p = true := by
  simp only [pointLe, decide_eq_true_eq]
  omega

theorem pointLe_antisymm {p q : Point} (h1 : pointLe p q = true)
    (h2 : pointLe q p = true) : p = q := by
  obtain ⟨a, b⟩ := p
  obtain ⟨c, d⟩ := q
  simp only [pointLe, decide_eq_true_eq] at h1 h2
  have hac : a = c := by omega
  have hbd : b = d := by omega
  rw [hac, hbd]

theorem get_edge_key_comm (p q : Point) : get_edge_key p q = get_edge_key q p := by
  unfold get_edge_key
  cases h1 : pointLe p q with
  | true =>
    cases h2 : pointLe q p with
    | true =>
      have hpq := pointLe_antisymm h1 h2
      subst hpq
      simp
    | false => simp [h1, h2]
  | false =>
    cases h2 : pointLe q p with
    | true => simp [h1, h2]
    | false =>
      rcases pointLe_total p q with h | h
      · rw [h] at h1; cases h1
      · rw [h] at h2; cases h2

/-! ## Lemmas about the adjacency map -/

theorem lookupG_addNeighbor (g : Graph) (p q r : Point) :
    lookupG (addNeighbor g p q) r =
      if p = r then lookupG g r ++ [q] else lookupG g r := by
  induction g with
  | nil =>
    by_cases h : p = r <;> simp [addNeighbor, lookupG, h]
  | cons ent rest ih =>
    obtain ⟨a, ns⟩ := ent
    by_cases hap : a = p
    · subst hap
      by_cases har : a = r <;> simp [addNeighbor, lookupG, har]
    · by_cases har : a = r
      · have hpr : ¬ p = r := fun h => hap (har.trans h.symm)
        have hrp : ¬ r = p := fun h => hpr h.symm
        simp [addNeighbor, lookupG, hap, har, hpr, hrp]
      · simp [addNeighbor, lookupG, hap, har, ih]

theorem keys_addNeighbor (g : Graph) (p q : Point) :
    (addNeighbor g p q).map (fun ent => ent.1) =
      if p ∈ g.map (fun ent => ent.1) then g.map (fun ent => ent.1)
      else g.map (fun ent => ent.1) ++ [p] := by
  induction g with
  | nil => simp [addNeighbor]
  | cons ent rest ih =>
    obtain ⟨a, ns⟩ := ent
    by_cases hap : a = p
    · subst hap; simp [addNeighbor]
    · have hpa : ¬ p = a := fun h => hap h.symm
      by_cases hm : p ∈ rest.map (fun ent => ent.1) <;>
        simp [addNeighbor, hap, hpa, hm, ih]

theorem keysNodup_addNeighbor {g : Graph} (p q : Point)
    (h : (g.map (fun ent => ent.1)).Nodup) :
    ((addNeighbor g p q).map (fun ent => ent.1)).Nodup := by
  rw [keys_addNeighbor]
  by_cases hm : p ∈ g.map (fun ent => ent.1)
  · simpa [hm] using h
  · rw [if_neg hm]
    refine h.append (List.nodup_singleton p) ?_
    intro a ha hp
    simp only [List.mem_singleton] at hp
    subst hp
    exact hm ha

theorem keysNodup_foldl :
    ∀ (S : List (Point × Point)) (g0 : Graph),
    (g0.map (fun ent => ent.1)).Nodup →
    ((S.foldl build_step g0).map (fun ent => ent.1)).Nodup := by
  intro S
  induction S with
  | nil => intro g0 h; exact h
  | cons s rest ih =>
    intro g0 h
    rw [List.foldl_cons]
    apply ih
    unfold build_step
    by_cases hs : s.1 = s.2
    · simpa [hs] using h
    · rw [if_neg hs]
      exact keysNodup_addNeighbor _ _ (keysNodup_addNeighbor _ _ h)

theorem keysNodup_build (S : List (Point × Point)) :
    ((build_graph S).map (fun ent => ent.1)).Nodup :=
  keysNodup_foldl S [] (by simp)

theorem lookupG_mem {g : Graph} {p : Point} (h : ¬ lookupG g p = []) :
    (p, lookupG g p) ∈ g := by
  induction g with
  | nil => simp [lookupG] at h
  | cons ent rest ih =>
    obtain ⟨a, ns⟩ := ent
    by_cases hap : a = p
    · subst hap
      simp [lookupG]
    · simp only [lookupG, if_neg hap] at h ⊢
      exact List.mem_cons_of_mem _ (ih h)

theorem mem_lookupG {g : Graph} {p : Point} {ns : List Point}
    (hnd : (g.map (fun ent => ent.1)).Nodup) (hm : (p, ns) ∈ g) :
    lookupG g p = ns := by
  induction g with
  | nil => cases hm
  | cons ent rest ih =>
    obtain ⟨a, ms⟩ := ent
    rcases List.mem_cons.1 hm with heq | htl
    · injection heq with h1 h2
      subst h1; subst h2
      simp [lookupG]
    · have hpm : p ∈ rest.map (fun ent => ent.1) :=
        List.mem_map.2 ⟨(p, ns), htl, rfl⟩
      have hap : ¬ a = p := by
        intro h
        subst h
        simp only [List.map_cons, List.nodup_cons] at hnd
        exact hnd.1 hpm
      simp only [lookupG, if_neg hap]
      exact ih (by simpa using hnd.of_cons) htl

/-! ## Lemmas about the edge-key list of a graph -/

theorem mem_EdgeSetOf {g : Graph} {e : Edge} :
    e ∈ EdgeSetOf g ↔ ∃ ent, ent ∈ g ∧ ∃ n, n ∈ ent.2 ∧ get_edge_key ent.1 n = e := by
  simp [EdgeSetOf, List.mem_flatMap, List.mem_map]

theorem key_mem_EdgeSetOf {g : Graph} {p n : Point} (h : n ∈ lookupG g p) :
    get_edge_key p n ∈ EdgeSetOf g := by
  have hne : ¬ lookupG g p = [] := by
    intro h0
    rw [h0] at h
    cases h
  exact mem_EdgeSetOf.2 ⟨(p, lookupG g p), lookupG_mem hne, n, h, rfl⟩

theorem build_step_deg {g : Graph} {x y : Point} (h : x = y) :
    build_step g (x, y) = g := by
  simp [build_step, h]

theorem build_step_ne {g : Graph} {x y : Point} (h : ¬ x = y) :
    build_step g (x, y) = addNeighbor (addNeighbor g x y) y x := by
  simp [build_step, h]

theorem mem_EdgeSetOf_addNeighbor {g : Graph} {p q : Point} {e : Edge} :
    e ∈ EdgeSetOf (addNeighbor g p q) ↔ e ∈ EdgeSetOf g ∨ e = get_edge_key p q := by
  induction g with
  | nil => simp [addNeighbor, EdgeSetOf, eq_comm]
  | cons ent rest ih =>
    obtain ⟨a, ns⟩ := ent
    by_cases hap : a = p
    · subst hap
      have hstep : addNeighbor ((a, ns) :: rest) a q = (a, ns ++ [q]) :: rest := by
        simp [addNeighbor]
      rw [hstep]
      simp only [EdgeSetOf, List.flatMap_cons, List.mem_append, List.map_append,
        List.map_cons, List.map_nil, List.mem_singleton]
      tauto
    · have hstep : addNeighbor ((a, ns) :: rest) p q = (a, ns) :: addNeighbor rest p q := by
        simp [addNeighbor, hap]
      rw [hstep]
      simp only [EdgeSetOf, List.flatMap_cons, List.mem_append] at ih ⊢
      tauto

theorem mem_EdgeSetOf_foldl :
    ∀ (S : List (Point × Point)) (g0 : Graph) (e : Edge),
    e ∈ EdgeSetOf (S.foldl build_step g0) ↔
      e ∈ EdgeSetOf g0 ∨ ∃ p q, (p, q) ∈ S ∧ ¬ p = q ∧ e = get_edge_key p q := by
  intro S
  induction S with
  | nil => simp
  | cons s rest ih =>
    intro g0 e
    obtain ⟨x, y⟩ := s
    rw [List.foldl_cons, ih]
    by_cases hxy : x = y
    · rw [build_step_deg hxy]
      constructor
      · rintro (h | ⟨p, q, hm, hne, he⟩)
        · exact Or.inl h
        · exact Or.inr ⟨p, q, List.mem_cons_of_mem _ hm, hne, he⟩
      · rintro (h | ⟨p, q, hm, hne, he⟩)
        · exact Or.inl h
        · rcases List.mem_cons.1 hm with heq | htl
          · injection heq with h1 h2
            subst h1; subst h2
            exact absurd hxy hne
          · exact Or.inr ⟨p, q, htl, hne, he⟩
    · rw [build_step_ne hxy]
      simp only [mem_EdgeSetOf_addNeighbor]
      constructor
      · rintro (((h | rfl) | rfl) | ⟨p, q, hm, hne, rfl⟩)
        · exact Or.inl h
        · exact Or.inr ⟨x, y, List.mem_cons_self _ _, hxy, rfl⟩
        · exact Or.inr ⟨x, y, List.mem_cons_self _ _, hxy, get_edge_key_comm y x⟩
        · exact Or.inr ⟨p, q, List.mem_cons_of_mem _ hm, hne, rfl⟩
      · rintro (h | ⟨p, q, hm, hne, rfl⟩)
        · exact Or.inl (Or.inl (Or.inl h))
        · rcases List.mem_cons.1 hm with heq | htl
          · injection heq with h1 h2
            subst h1; subst h2
            exact Or.inl (Or.inl (Or.inr rfl))
          · exact Or.inr ⟨p, q, htl, hne, rfl⟩

theorem mem_EdgeSetOf_build {S : List (Point × Point)} {e : Edge} :
    e ∈ EdgeSetOf (build_graph S) ↔
      ∃ p q, (p, q) ∈ S ∧ ¬ p = q ∧ e = get_edge_key p q := by
  have h := mem_EdgeSetOf_foldl S [] e
  simpa [EdgeSetOf, build_graph] using h

/-! ## Occurrence counts, symmetry and absence of self-loops -/

theorem countOcc_append (a : Point) (l m : List Point) :
    countOcc a (l ++ m) = countOcc a l + countOcc a m := by
  induction l with
  | nil => simp [countOcc]
  | cons x rest ih =>
    show (if x = a then 1 else 0) + countOcc a (rest ++ m) =
      ((if x = a then 1 else 0) + countOcc a rest) + countOcc a m
    rw [ih]
    omega

theorem countOcc_singleton (a x : Point) :
    countOcc a [x] = if x = a then 1 else 0 := by
  simp [countOcc]

theorem countOcc_ifapp (c d : Point) (l : List Point) (P : Prop) [Decidable P] :
    countOcc c (if P then l ++ [d] else l) =
      countOcc c l + (if P then (if d = c then 1 else 0) else 0) := by
  by_cases h : P <;> simp [h, countOcc_append, countOcc_singleton]

theorem countOcc_ifsingle (c d : Point) (P : Prop) [Decidable P] :
    countOcc c (if P then [d] else []) =
      (if P then (if d = c then 1 else 0) else 0) := by
  by_cases h : P <;> simp [h, countOcc_singleton, countOcc]

theorem countOcc_pos {a : Point} {l : List Point} : 0 < countOcc a l ↔ a ∈ l := by
  induction l with
  | nil => simp [countOcc]
  | cons x rest ih =>
    by_cases hx : x = a
    · subst hx
      simp [countOcc]
    · have hax : ¬ a = x := fun h => hx h.symm
      simp [countOcc, hx, hax, ih]

theorem lookupG_build_step (g : Graph) (x y a : Point) (hxy : ¬ x = y) :
    lookupG (build_step g (x, y)) a =
      (if x = a then lookupG g a ++ [y] else lookupG g a) ++
        (if y = a then [x] else []) := by
  unfold build_step
  simp only [if_neg hxy]
  simp only [lookupG_addNeighbor]
  by_cases hx : x = a <;> by_cases hy : y = a <;> simp [hx, hy]

theorem sym_foldl :
    ∀ (S : List (Point × Point)) (g0 : Graph),
    (∀ a b, countOcc b (lookupG g0 a) = countOcc a (lookupG g0 b)) →
    ∀ a b, countOcc b (lookupG (S.foldl build_step g0) a) =
      countOcc a (lookupG (S.foldl build_step g0) b) := by
  intro S
  induction S with
  | nil => intro g0 h; exact h
  | cons s rest ih =>
    intro g0 h
    rw [List.foldl_cons]
    apply ih
    intro a b
    obtain ⟨x, y⟩ := s
    by_cases hxy : x = y
    · rw [build_step_deg hxy]
      exact h a b
    · rw [lookupG_build_step g0 x y a hxy, lookupG_build_step g0 x y b hxy,
        countOcc_append, countOcc_append, countOcc_ifapp, countOcc_ifapp,
        countOcc_ifsingle, countOcc_ifsingle, h a b]
      split_ifs <;> omega

theorem noself_foldl :
    ∀ (S : List (Point × Point)) (g0 : Graph),
    (∀ a, ¬ a ∈ lookupG g0 a) →
    ∀ a, ¬ a ∈ lookupG (S.foldl build_step g0) a := by
  intro S
  induction S with
  | nil => intro g0 h; exact h
  | cons s rest ih =>
    intro g0 h
    rw [List.foldl_cons]
    apply ih
    intro a
    obtain ⟨x, y⟩ := s
    by_cases hxy : x = y
    · simpa [build_step, hxy] using h a
    · rw [lookupG_build_step g0 x y a hxy]
      simp only [List.mem_append]
      rintro (hm | hm)
      · by_cases hxa : x = a
        · rw [if_pos hxa] at hm
          rcases List.mem_append.1 hm with hm | hm
          · exact h a hm
          · simp only [List.mem_singleton] at hm
            exact hxy (hxa.trans hm)
        · rw [if_neg hxa] at hm
          exact h a hm
      · by_cases hya : y = a
        · rw [if_pos hya] at hm
          simp only [List.mem_singleton] at hm
          exact hxy (hm.symm.trans hya.symm)
        · rw [if_neg hya] at hm
          cases hm

theorem build_sym (S : List (Point × Point)) (a b : Point) :
    countOcc b (lookupG (build_graph S) a) = countOcc a (lookupG (build_graph S) b) :=
  sym_foldl S [] (by intro a b; simp [lookupG, countOcc]) a b

theorem build_noself (S : List (Point × Point)) (a : Point) :
    ¬ a ∈ lookupG (build_graph S) a :=
  noself_foldl S [] (by intro a; simp [lookupG]) a

theorem build_symmetric_mem {S : List (Point × Point)} {p n : Point}
    (h : n ∈ lookupG (build_graph S) p) : p ∈ lookupG (build_graph S) n := by
  have h1 : 0 < countOcc n (lookupG (build_graph S) p) := countOcc_pos.2 h
  rw [build_sym S p n] at h1
  exact countOcc_pos.1 h1

/-! ## The neighbor scan -/

theorem findNext_some {visited : List Edge} {c n : Point} :
    ∀ {ns : List Point}, findNext visited c ns = some n →
      n ∈ ns ∧ ¬ get_edge_key c n ∈ visited := by
  intro ns
  induction ns with
  | nil => intro h; simp [findNext] at h
  | cons m rest ih =>
    intro h
    by_cases hm : get_edge_key c m ∈ visited
    · simp only [findNext, if_pos hm] at h
      obtain ⟨h1, h2⟩ := ih h
      exact ⟨List.mem_cons_of_mem _ h1, h2⟩
    · simp only [findNext, if_neg hm, Option.some.injEq] at h
      subst h
      exact ⟨List.mem_cons_self _ _, hm⟩

theorem findNext_none {visited : List Edge} {c : Point} :
    ∀ {ns : List Point}, findNext visited c ns = none →
      ∀ n ∈ ns, get_edge_key c n ∈ visited := by
  intro ns
  induction ns with
  | nil => intro _ n hn; cases hn
  | cons m rest ih =>
    intro h n hn
    by_cases hm : get_edge_key c m ∈ visited
    · simp only [findNext, if_pos hm] at h
      rcases List.mem_cons.1 hn with rfl | hn
      · exact hm
      · exact ih h n hn
    · simp [findNext, if_neg hm] at h

theorem findNext_append {visited : List Edge} {c : Point} {pre ns : List Point}
    (h : ∀ n ∈ pre, get_edge_key c n ∈ visited) :
    findNext visited c (pre ++ ns) = findNext visited c ns := by
  induction pre with
  | nil => rfl
  | cons m rest ih =>
    simp only [List.cons_append, findNext, if_pos (h m (List.mem_cons_self _ _))]
    exact ih (fun n hn => h n (List.mem_cons_of_mem _ hn))

/-! ## The edge list implied by a polyline -/

theorem polyEdges_concat :
    ∀ (l : List Point) (c n : Point), l.getLast? = some c →
      polyEdges (l ++ [n]) = polyEdges l ++ [get_edge_key c n] := by
  intro l
  induction l with
  | nil => intro c n h; cases h
  | cons p rest ih =>
    intro c n h
    cases rest with
    | nil =>
      simp only [List.getLast?_singleton, Option.some.injEq] at h
      subst h
      rfl
    | cons q rest2 =>
      have h2 : (q :: rest2).getLast? = some c := by
        rw [List.getLast?_cons_cons] at h
        exact h
      show get_edge_key p q :: polyEdges ((q :: rest2) ++ [n]) =
        (get_edge_key p q :: polyEdges (q :: rest2)) ++ [get_edge_key c n]
      rw [ih c n h2]
      rfl

theorem polyEdges_eq_zip :
    ∀ l : List Point,
      polyEdges l = (l.zip l.tail).map (fun pr => get_edge_key pr.1 pr.2) := by
  intro l
  induction l with
  | nil => rfl
  | cons p rest ih =>
    cases rest with
    | nil => rfl
    | cons q rest2 =>
      show get_edge_key p q :: polyEdges (q :: rest2) =
        ((p, q) :: ((q :: rest2).zip rest2)).map (fun pr => get_edge_key pr.1 pr.2)
      rw [ih]
      rfl

/-! ## Fuel sufficiency for the trace loop -/

theorem filter_length_mono (l : List Edge) (pa pb : Edge → Bool)
    (h : ∀ e, pb e = true → pa e = true) :
    (l.filter pb).length ≤ (l.filter pa).length := by
  induction l with
  | nil => simp
  | cons x rest ih =>
    by_cases hb : pb x = true
    · rw [List.filter_cons_of_pos hb, List.filter_cons_of_pos (h x hb)]
      simpa using ih
    · rw [List.filter_cons_of_neg (by simpa using hb)]
      by_cases ha : pa x = true
      · rw [List.filter_cons_of_pos ha]
        exact ih.trans (Nat.le_succ _)
      · rw [List.filter_cons_of_neg (by simpa using ha)]
        exact ih

theorem filter_cons_notmem_lt :
    ∀ (l : List Edge) (k : Edge) (v : List Edge), k ∈ l → ¬ k ∈ v →
    (l.filter (fun e => decide (¬ e ∈ k :: v))).length <
      (l.filter (fun e => decide (¬ e ∈ v))).length := by
  intro l
  induction l with
  | nil => intro k v hk; cases hk
  | cons x rest ih =>
    intro k v hk hkv
    have hmono : ∀ e : Edge,
        (decide (¬ e ∈ k :: v)) = true → (decide (¬ e ∈ v)) = true := by
      intro e he
      simp only [decide_eq_true_eq, List.mem_cons] at he ⊢
      exact fun hv => he (Or.inr hv)
    by_cases hxk : x = k
    · subst hxk
      have hf1 : List.filter (fun e => decide (¬ e ∈ x :: v)) (x :: rest) =
          List.filter (fun e => decide (¬ e ∈ x :: v)) rest := by
        rw [List.filter_cons]
        simp
      have hf2 : List.filter (fun e => decide (¬ e ∈ v)) (x :: rest) =
          x :: List.filter (fun e => decide (¬ e ∈ v)) rest := by
        rw [List.filter_cons]
        simp [hkv]
      rw [hf1, hf2]
      exact Nat.lt_succ_of_le (filter_length_mono rest _ _ hmono)
    · have hk2 : k ∈ rest := by
        rcases List.mem_cons.1 hk with h | h
        · exact absurd h.symm hxk
        · exact h
      by_cases hxv : x ∈ v
      · have hf1 : List.filter (fun e => decide (¬ e ∈ k :: v)) (x :: rest) =
            List.filter (fun e => decide (¬ e ∈ k :: v)) rest := by
          rw [List.filter_cons]
          simp [hxv]
        have hf2 : List.filter (fun e => decide (¬ e ∈ v)) (x :: rest) =
            List.filter (fun e => decide (¬ e ∈ v)) rest := by
          rw [List.filter_cons]
          simp [hxv]
        rw [hf1, hf2]
        exact ih k v hk2 hkv
      · have hf1 : List.filter (fun e => decide (¬ e ∈ k :: v)) (x :: rest) =
            x :: List.filter (fun e => decide (¬ e ∈ k :: v)) rest := by
          rw [List.filter_cons]
          simp [hxv, hxk]
        have hf2 : List.filter (fun e => decide (¬ e ∈ v)) (x :: rest) =
            x :: List.filter (fun e => decide (¬ e ∈ v)) rest := by
          rw [List.filter_cons]
          simp [hxv]
        rw [hf1, hf2]
        exact Nat.succ_lt_succ (ih k v hk2 hkv)

theorem unvisitedCount_lt {g : Graph} {v : List Edge} {k : Edge}
    (hk : k ∈ EdgeSetOf g) (hkv : ¬ k ∈ v) :
    unvisitedCount g (k :: v) < unvisitedCount g v :=
  filter_cons_notmem_lt _ k v (List.mem_dedup.2 hk) hkv

theorem unvisitedCount_lt_fuelFor (g : Graph) (v : List Edge) :
    unvisitedCount g v < fuelFor g := by
  unfold unvisitedCount fuelFor
  have h1 : ((EdgeSetOf g).dedup.filter (fun e => decide (¬ e ∈ v))).length ≤
      (EdgeSetOf g).dedup.length := List.length_filter_le _ _
  have h2 : (EdgeSetOf g).dedup.length ≤ (EdgeSetOf g).length :=
    (List.dedup_sublist _).length_le
  omega

theorem trace_suff (g : Graph) (eps js : List Point) :
    ∀ (fuel : Nat) (path : List Point) (c : Point) (v : List Edge),
      unvisitedCount g v < fuel →
      (trace_path fuel g eps js path c v).isSome = true := by
  intro fuel
  induction fuel with
  | zero => intro path c v h; exact absurd h (Nat.not_lt_zero _)
  | succ f ih =>
    intro path c v h
    rcases hfn : findNext v c (lookupG g c) with _ | n
    · simp [trace_path, hfn]
    · obtain ⟨hmem, hnv⟩ := findNext_some hfn
      by_cases hb : n ∈ eps ∨ n ∈ js
      · simp [trace_path, hfn, hb]
      · have hk : get_edge_key c n ∈ EdgeSetOf g := key_mem_EdgeSetOf hmem
        have hlt : unvisitedCount g (get_edge_key c n :: v) < f :=
          lt_of_lt_of_le (unvisitedCount_lt hk hnv) (Nat.lt_succ_iff.1 h)
        have hrec := ih (path ++ [n]) n (get_edge_key c n :: v) hlt
        simpa [trace_path, hfn, hb] using hrec

theorem trace_run_isSome (g : Graph) (eps js : List Point) (s : Point)
    (v : List Edge) : (trace_path_run g eps js s v).isSome = true :=
  trace_suff g eps js (fuelFor g) [s] s v (unvisitedCount_lt_fuelFor g v)

/-! ## What one trace does -/

theorem trace_vmono (g : Graph) (eps js : List Point) :
    ∀ (fuel : Nat) (path : List Point) (c : Point) (v : List Edge)
      (p' : List Point) (v' : List Edge),
      trace_path fuel g eps js path c v = some (p', v') → ∀ e ∈ v, e ∈ v' := by
  intro fuel
  induction fuel with
  | zero => intro path c v p' v' h; simp [trace_path] at h
  | succ f ih =>
    intro path c v p' v' h e he
    rcases hfn : findNext v c (lookupG g c) with _ | n
    · rw [show trace_path (f+1) g eps js path c v = some (path, v) from by
        simp [trace_path, hfn]] at h
      have hh := Option.some.inj h
      injection hh with h1 h2
      subst h2
      exact he
    · by_cases hb : n ∈ eps ∨ n ∈ js
      · rw [show trace_path (f+1) g eps js path c v
            = some (path ++ [n], get_edge_key c n :: v) from by
          simp [trace_path, hfn, hb]] at h
        have hh := Option.some.inj h
        injection hh with h1 h2
        subst h2
        exact List.mem_cons_of_mem _ he
      · have hrec : trace_path (f+1) g eps js path c v =
            trace_path f g eps js (path ++ [n]) n (get_edge_key c n :: v) := by
          simp [trace_path, hfn, hb]
        rw [hrec] at h
        exact ih _ _ _ _ _ h e (List.mem_cons_of_mem _ he)

theorem trace_first (g : Graph) (eps js : List Point) (f : Nat) (s n : Point)
    (v : List Edge) (p' : List Point) (v' : List Edge)
    (hfn : findNext v s (lookupG g s) = some n)
    (h : trace_path (f + 1) g eps js [s] s v = some (p', v')) :
    get_edge_key s n ∈ v' := by
  by_cases hb : n ∈ eps ∨ n ∈ js
  · rw [show trace_path (f+1) g eps js [s] s v
        = some ([s] ++ [n], get_edge_key s n :: v) from by
      simp [trace_path, hfn, hb]] at h
    have hh := Option.some.inj h
    injection hh with h1 h2
    subst h2
    exact List.mem_cons_self _ _
  · have hrec : trace_path (f+1) g eps js [s] s v =
        trace_path f g eps js ([s] ++ [n]) n (get_edge_key s n :: v) := by
      simp [trace_path, hfn, hb]
    rw [hrec] at h
    exact trace_vmono g eps js f _ _ _ _ _ h _ (List.mem_cons_self _ _)

theorem trace_spec (g : Graph) (eps js : List Point) :
    ∀ (fuel : Nat) (path : List Point) (c : Point) (v : List Edge)
      (p' : List Point) (v' : List Edge),
      trace_path fuel g eps js path c v = some (p', v') →
      path.getLast? = some c →
      ∃ delta ext,
        v' = delta ++ v ∧
        p' = path ++ ext ∧
        polyEdges p' = polyEdges path ++ delta.reverse ∧
        (∀ e ∈ delta, ¬ e ∈ v ∧ e ∈ EdgeSetOf g) ∧
        delta.Nodup ∧
        (∀ x ∈ ext.dropLast, ¬ x ∈ eps ∧ ¬ x ∈ js) ∧
        List.Chain' (fun a b => b ∈ lookupG g a) (c :: ext) := by
  intro fuel
  induction fuel with
  | zero => intro path c v p' v' h _; simp [trace_path] at h
  | succ f ih =>
    intro path c v p' v' h hlast
    rcases hfn : findNext v c (lookupG g c) with _ | n
    · rw [show trace_path (f+1) g eps js path c v = some (path, v) from by
        simp [trace_path, hfn]] at h
      have hh := Option.some.inj h
      injection hh with h1 h2
      subst h1; subst h2
      exact ⟨[], [], by simp, by simp, by simp, by simp, by simp, by simp,
        List.chain'_singleton c⟩
    · obtain ⟨hmem, hnv⟩ := findNext_some hfn
      have hkey : get_edge_key c n ∈ EdgeSetOf g := key_mem_EdgeSetOf hmem
      by_cases hb : n ∈ eps ∨ n ∈ js
      · rw [show trace_path (f+1) g eps js path c v
            = some (path ++ [n], get_edge_key c n :: v) from by
          simp [trace_path, hfn, hb]] at h
        have hh := Option.some.inj h
        injection hh with h1 h2
        subst h1; subst h2
        refine ⟨[get_edge_key c n], [n], by simp, rfl, ?_, ?_, by simp, by simp, ?_⟩
        · rw [polyEdges_concat path c n hlast]
          simp
        · intro e he
          simp only [List.mem_singleton] at he
          subst he
          exact ⟨hnv, hkey⟩
        · exact List.chain'_pair.2 hmem
      · have hrec : trace_path (f+1) g eps js path c v =
            trace_path f g eps js (path ++ [n]) n (get_edge_key c n :: v) := by
          simp [trace_path, hfn, hb]
        rw [hrec] at h
        have hlast2 : (path ++ [n]).getLast? = some n := List.getLast?_concat _
        obtain ⟨delta, ext, hv, hp, hpe, hdel, hnd, hext, hch⟩ := ih _ _ _ _ _ h hlast2
        push_neg at hb
        refine ⟨delta ++ [get_edge_key c n], n :: ext, ?_, ?_, ?_, ?_, ?_, ?_, ?_⟩
        · rw [hv]
          simp
        · rw [hp]
          simp
        · rw [hpe, polyEdges_concat path c n hlast]
          simp
        · intro e he
          rcases List.mem_append.1 he with he | he
          · obtain ⟨he1, he2⟩ := hdel e he
            exact ⟨fun hev => he1 (List.mem_cons_of_mem _ hev), he2⟩
          · simp only [List.mem_singleton] at he
            subst he
            exact ⟨hnv, hkey⟩
        · rw [List.nodup_append]
          refine ⟨hnd, List.nodup_singleton _, ?_⟩
          intro e he1 he2
          simp only [List.mem_singleton] at he2
          subst he2
          exact (hdel _ he1).1 (List.mem_cons_self _ _)
        · intro x hx
          cases ext with
          | nil => simp at hx
          | cons y ys =>
            have hdl : (n :: y :: ys).dropLast = n :: (y :: ys).dropLast := rfl
            rw [hdl] at hx
            rcases List.mem_cons.1 hx with rfl | hx
            · exact ⟨hb.1, hb.2⟩
            · exact hext x hx
        · exact List.chain'_cons.2 ⟨hmem, hch⟩

/-! ## The extraction loops -/

theorem runFrom_vmono (g : Graph) (eps js : List Point) (s : Point) :
    ∀ (nbrs : List Point) (st : List (List Point) × List Edge),
      ∀ e ∈ st.2, e ∈ (runFrom g eps js s nbrs st).2 := by
  intro nbrs
  induction nbrs with
  | nil => intro st e he; exact he
  | cons n rest ih =>
    intro st e he
    by_cases hv : get_edge_key s n ∈ st.2
    · rw [show runFrom g eps js s (n :: rest) st = runFrom g eps js s rest st from by
        simp [runFrom, hv]]
      exact ih st e he
    · rcases htr : trace_path_run g eps js s st.2 with _ | pv
      · rw [show runFrom g eps js s (n :: rest) st = runFrom g eps js s rest st from by
          simp [runFrom, hv, htr]]
        exact ih st e he
      · obtain ⟨path, v2⟩ := pv
        rw [show runFrom g eps js s (n :: rest) st =
            runFrom g eps js s rest
              (if 2 ≤ path.length then st.1 ++ [path] else st.1, v2) from by
          simp [runFrom, hv, htr]]
        apply ih
        have htr2 : trace_path (fuelFor g) g eps js [s] s st.2 = some (path, v2) := htr
        exact trace_vmono g eps js _ _ _ _ _ _ htr2 e he

theorem runPhase_vmono (g : Graph) (eps js : List Point) :
    ∀ (starts : List Point) (st : List (List Point) × List Edge),
      ∀ e ∈ st.2, e ∈ (runPhase g eps js starts st).2 := by
  intro starts
  induction starts with
  | nil => intro st e he; exact he
  | cons s rest ih =>
    intro st e he
    rw [show runPhase g eps js (s :: rest) st =
        runPhase g eps js rest (runFrom g eps js s (lookupG g s) st) from rfl]
    exact ih _ e (runFrom_vmono g eps js s _ st e he)

theorem runFrom_post (g : Graph) (eps js : List Point) (s : Point) :
    ∀ (nbrs pre : List Point) (st : List (List Point) × List Edge),
      lookupG g s = pre ++ nbrs →
      (∀ m ∈ pre, get_edge_key s m ∈ st.2) →
      ∀ n ∈ nbrs, get_edge_key s n ∈ (runFrom g eps js s nbrs st).2 := by
  intro nbrs
  induction nbrs with
  | nil => intro pre st _ _ n hn; cases hn
  | cons n0 rest ih =>
    intro pre st hlk hpre n hn
    by_cases hv : get_edge_key s n0 ∈ st.2
    · rw [show runFrom g eps js s (n0 :: rest) st = runFrom g eps js s rest st from by
        simp [runFrom, hv]]
      have hlk2 : lookupG g s = (pre ++ [n0]) ++ rest := by
        rw [hlk]; simp
      have hpre2 : ∀ m ∈ pre ++ [n0], get_edge_key s m ∈ st.2 := by
        intro m hm
        rcases List.mem_append.1 hm with hm | hm
        · exact hpre m hm
        · simp only [List.mem_singleton] at hm
          subst hm
          exact hv
      rcases List.mem_cons.1 hn with rfl | hn2
      · exact runFrom_vmono g eps js s rest st _ hv
      · exact ih (pre ++ [n0]) st hlk2 hpre2 n hn2
    · rcases htr : trace_path_run g eps js s st.2 with _ | pv
      · have hs := trace_run_isSome g eps js s st.2
        rw [htr] at hs
        simp at hs
      · obtain ⟨path, v2⟩ := pv
        rw [show runFrom g eps js s (n0 :: rest) st =
            runFrom g eps js s rest
              (if 2 ≤ path.length then st.1 ++ [path] else st.1, v2) from by
          simp [runFrom, hv, htr]]
        have hfn : findNext st.2 s (lookupG g s) = some n0 := by
          rw [hlk, findNext_append hpre]
          simp [findNext, hv]
        have htr2 : trace_path ((EdgeSetOf g).length + 1) g eps js [s] s st.2 =
            some (path, v2) := htr
        have hk0 : get_edge_key s n0 ∈ v2 :=
          trace_first g eps js ((EdgeSetOf g).length) s n0 st.2 path v2 hfn htr2
        have hv2mono : ∀ e ∈ st.2, e ∈ v2 := by
          intro e he
          exact trace_vmono g eps js _ _ _ _ _ _ htr2 e he
        have hlk2 : lookupG g s = (pre ++ [n0]) ++ rest := by
          rw [hlk]; simp
        have hpre2 : ∀ m ∈ pre ++ [n0], get_edge_key s m ∈
            ((if 2 ≤ path.length then st.1 ++ [path] else st.1, v2) :
              List (List Point) × List Edge).2 := by
          intro m hm
          rcases List.mem_append.1 hm with hm | hm
          · exact hv2mono _ (hpre m hm)
          · simp only [List.mem_singleton] at hm
            subst hm
            exact hk0
        rcases List.mem_cons.1 hn with rfl | hn2
        · exact runFrom_vmono g eps js s rest _ _ hk0
        · exact ih (pre ++ [n0]) _ hlk2 hpre2 n hn2

theorem runPhase_post (g : Graph) (eps js : List Point) :
    ∀ (starts : List Point) (st : List (List Point) × List Edge) (s : Point),
      s ∈ starts → ∀ n ∈ lookupG g s,
        get_edge_key s n ∈ (runPhase g eps js starts st).2 := by
  intro starts
  induction starts with
  | nil => intro st s hs; cases hs
  | cons s0 rest ih =>
    intro st s hs n hn
    rw [show runPhase g eps js (s0 :: rest) st =
        runPhase g eps js rest (runFrom g eps js s0 (lookupG g s0) st) from rfl]
    rcases List.mem_cons.1 hs with rfl | hs2
    · have hpost := runFrom_post g eps js s (lookupG g s) [] st (by simp)
        (by intro m hm; cases hm) n hn
      exact runPhase_vmono g eps js rest _ _ hpost
    · exact ih _ s hs2 n hn

theorem runFrom_inv (g : Graph) (eps js : List Point) (s : Point) :
    ∀ (nbrs : List Point) (st : List (List Point) × List Edge),
      Inv g eps js st → Inv g eps js (runFrom g eps js s nbrs st) := by
  intro nbrs
  induction nbrs with
  | nil => intro st h; exact h
  | cons n rest ih =>
    intro st hinv
    by_cases hv : get_edge_key s n ∈ st.2
    · rw [show runFrom g eps js s (n :: rest) st = runFrom g eps js s rest st from by
        simp [runFrom, hv]]
      exact ih st hinv
    · rcases htr : trace_path_run g eps js s st.2 with _ | pv
      · rw [show runFrom g eps js s (n :: rest) st = runFrom g eps js s rest st from by
          simp [runFrom, hv, htr]]
        exact ih st hinv
      · obtain ⟨path, v2⟩ := pv
        rw [show runFrom g eps js s (n :: rest) st =
            runFrom g eps js s rest
              (if 2 ≤ path.length then st.1 ++ [path] else st.1, v2) from by
          simp [runFrom, hv, htr]]
        apply ih
        have htr2 : trace_path (fuelFor g) g eps js [s] s st.2 = some (path, v2) := htr
        obtain ⟨delta, ext, hveq, hpeq, hpe, hdel, hnd, hext, hch⟩ :=
          trace_spec g eps js (fuelFor g) [s] s st.2 path v2 htr2 rfl
        have hpe2 : polyEdges path = delta.reverse := by simpa using hpe
        obtain ⟨hiff, hpw, hsub, hok⟩ := hinv
        by_cases hlen : 2 ≤ path.length
        · rw [if_pos hlen]
          refine ⟨?_, ?_, ?_, ?_⟩
          · intro e
            show e ∈ v2 ↔ ∃ pp ∈ st.1 ++ [path], e ∈ polyEdges pp
            constructor
            · intro he
              rcases List.mem_append.1 (hveq ▸ he) with he | he
              · exact ⟨path, List.mem_append_right _ (List.mem_singleton_self _),
                  by rw [hpe2]; exact List.mem_reverse.2 he⟩
              · obtain ⟨pp, hpp, hpe3⟩ := (hiff e).1 he
                exact ⟨pp, List.mem_append_left _ hpp, hpe3⟩
            · rintro ⟨pp, hpp, hpe3⟩
              rw [hveq]
              rcases List.mem_append.1 hpp with hpp | hpp
              · exact List.mem_append_right _ ((hiff e).2 ⟨pp, hpp, hpe3⟩)
              · simp only [List.mem_singleton] at hpp
                subst hpp
                rw [hpe2] at hpe3
                exact List.mem_append_left _ (List.mem_reverse.1 hpe3)
          · show List.Pairwise Disj (st.1 ++ [path])
            rw [List.pairwise_append]
            refine ⟨hpw, List.pairwise_singleton _ _, ?_⟩
            intro a ha b hb
            simp only [List.mem_singleton] at hb
            subst hb
            intro e hea heb
            have h1 : e ∈ st.2 := (hiff e).2 ⟨a, ha, hea⟩
            rw [hpe2] at heb
            exact (hdel e (List.mem_reverse.1 heb)).1 h1
          · show ∀ e ∈ v2, e ∈ EdgeSetOf g
            intro e he
            rcases List.mem_append.1 (hveq ▸ he) with he | he
            · exact (hdel e he).2
            · exact hsub e he
          · show ∀ pp ∈ st.1 ++ [path], PathOk g eps js pp
            intro pp hpp
            rcases List.mem_append.1 hpp with hpp | hpp
            · exact hok pp hpp
            · simp only [List.mem_singleton] at hpp
              subst hpp
              refine ⟨hlen, ?_, ?_⟩
              · rw [hpeq]
                intro x hx
                have htl : ([s] ++ ext).tail = ext := rfl
                rw [htl] at hx
                exact hext x hx
              · rw [hpeq]
                exact hch
        · rw [if_neg hlen]
          have hext0 : ext = [] := by
            cases ext with
            | nil => rfl
            | cons y ys =>
              exfalso
              apply hlen
              rw [hpeq]
              simp only [List.length_append, List.length_cons, List.length_nil]
              omega
          subst hext0
          have hdelta : delta = [] := by
            have h0 : ([] : List Edge) = delta.reverse := by
              have h1 := hpe2
              rw [hpeq] at h1
              exact h1
            exact List.reverse_eq_nil_iff.1 h0.symm
          subst hdelta
          have hv2 : v2 = st.2 := by simpa using hveq
          rw [hv2]
          exact ⟨hiff, hpw, hsub, hok⟩

theorem runPhase_inv (g : Graph) (eps js : List Point) :
    ∀ (starts : List Point) (st : List (List Point) × List Edge),
      Inv g eps js st → Inv g eps js (runPhase g eps js starts st) := by
  intro starts
  induction starts with
  | nil => intro st h; exact h
  | cons s rest ih =>
    intro st h
    rw [show runPhase g eps js (s :: rest) st =
        runPhase g eps js rest (runFrom g eps js s (lookupG g s) st) from rfl]
    exact ih _ (runFrom_inv g eps js s _ st h)

theorem extract_inv (g : Graph) :
    Inv g (find_endpoints_and_junctions g).1 (find_endpoints_and_junctions g).2
      (extract_full g) := by
  unfold extract_full
  refine runPhase_inv _ _ _ _ _ (runPhase_inv _ _ _ _ _ (runPhase_inv _ _ _ _ _ ?_))
  exact ⟨by simp, by simp, by simp, by simp⟩

theorem extract_covers (g : Graph)
    (hnd : (g.map (fun ent => ent.1)).Nodup) :
    ∀ e ∈ EdgeSetOf g, e ∈ (extract_full g).2 := by
  intro e he
  obtain ⟨ent, hent, n, hn, hkey⟩ := mem_EdgeSetOf.1 he
  obtain ⟨p, ns⟩ := ent
  have hlk : lookupG g p = ns := mem_lookupG hnd hent
  have hp : p ∈ g.map (fun ent => ent.1) := List.mem_map.2 ⟨(p, ns), hent, rfl⟩
  subst hkey
  unfold extract_full
  exact runPhase_post g _ _ _ _ p hp n (by rw [hlk]; exact hn)

theorem edge_cover (g : Graph) (hnd : (g.map (fun ent => ent.1)).Nodup) (e : Edge) :
    (∃ path ∈ extract_polylines g, e ∈ polyEdges path) ↔ e ∈ EdgeSetOf g := by
  obtain ⟨hiff, _, hsub, _⟩ := extract_inv g
  constructor
  · intro h
    exact hsub e ((hiff e).2 h)
  · intro h
    exact (hiff e).1 (extract_covers g hnd e h)

/-! ## Support lemmas for the degree-boundary and idempotence claims -/

theorem chain'_mem_tail {R : Point → Point → Prop} :
    ∀ {l : List Point} {p : Point}, List.Chain' R l → p ∈ l.tail → ∃ c, R c p := by
  intro l
  induction l with
  | nil => intro p _ hp; cases hp
  | cons x rest ih =>
    intro p hch hp
    cases rest with
    | nil => cases hp
    | cons y ys =>
      obtain ⟨hxy, hch2⟩ := List.chain'_cons.1 hch
      rcases List.mem_cons.1 hp with rfl | hp2
      · exact ⟨x, hxy⟩
      · exact ih hch2 hp2

theorem chain'_zip_mem {R : Point → Point → Prop} :
    ∀ {l : List Point} {a b : Point},
      List.Chain' R l → (a, b) ∈ l.zip l.tail → R a b := by
  intro l
  induction l with
  | nil => intro a b _ hm; cases hm
  | cons x rest ih =>
    intro a b hch hm
    cases rest with
    | nil => cases hm
    | cons y ys =>
      obtain ⟨hxy, hch2⟩ := List.chain'_cons.1 hch
      rcases List.mem_cons.1 hm with heq | hm2
      · injection heq with h1 h2
        subst h1; subst h2
        exact hxy
      · exact ih hch2 hm2

theorem mem_eps_of {g : Graph} {p : Point} {ns : List Point}
    (hm : (p, ns) ∈ g) (hlen : ns.length = 1) :
    p ∈ (find_endpoints_and_junctions g).1 := by
  unfold find_endpoints_and_junctions
  exact List.mem_map.2 ⟨(p, ns), List.mem_filter.2 ⟨hm, by simp [hlen]⟩, rfl⟩

theorem mem_js_of {g : Graph} {p : Point} {ns : List Point}
    (hm : (p, ns) ∈ g) (hlen : 3 ≤ ns.length) :
    p ∈ (find_endpoints_and_junctions g).2 := by
  unfold find_endpoints_and_junctions
  exact List.mem_map.2 ⟨(p, ns), List.mem_filter.2 ⟨hm, by simp [hlen]⟩, rfl⟩

theorem interior_degree (S : List (Point × Point)) (path : List Point) (x : Point)
    (hp : path ∈ extract_polylines (build_graph S))
    (hx : x ∈ path.tail.dropLast) :
    (lookupG (build_graph S) x).length = 2 ∧
    ¬ x ∈ (find_endpoints_and_junctions (build_graph S)).1 ∧
    ¬ x ∈ (find_endpoints_and_junctions (build_graph S)).2 := by
  obtain ⟨_, _, _, hok⟩ := extract_inv (build_graph S)
  obtain ⟨hlen, hint, hch⟩ := hok path hp
  have hnon := hint x hx
  have hxt : x ∈ path.tail := (List.dropLast_sublist _).subset hx
  obtain ⟨c, hc⟩ := chain'_mem_tail hch hxt
  have hx2 : c ∈ lookupG (build_graph S) x := build_symmetric_mem hc
  have hne : ¬ lookupG (build_graph S) x = [] := by
    intro h0
    rw [h0] at hx2
    cases hx2
  have hg : (x, lookupG (build_graph S) x) ∈ build_graph S := lookupG_mem hne
  have hlen1 : ¬ (lookupG (build_graph S) x).length = 1 := by
    intro h1
    exact hnon.1 (mem_eps_of hg h1)
  have hlen3 : ¬ 3 ≤ (lookupG (build_graph S) x).length := by
    intro h3
    exact hnon.2 (mem_js_of hg h3)
  have hpos : ¬ (lookupG (build_graph S) x).length = 0 := by
    intro h0
    exact hne (List.length_eq_zero.1 h0)
  exact ⟨by omega, hnon.1, hnon.2⟩

theorem extract_chain_ne (S : List (Point × Point)) (path : List Point)
    (hp : path ∈ extract_polylines (build_graph S)) :
    List.Chain' (fun a b => ¬ a = b) path := by
  obtain ⟨_, _, _, hok⟩ := extract_inv (build_graph S)
  obtain ⟨_, _, hch⟩ := hok path hp
  refine hch.imp ?_
  intro a b hab heq
  subst heq
  exact build_noself S a hab

theorem polyEdges_mem_iff {path : List Point} {e : Edge} :
    e ∈ polyEdges path ↔
      ∃ pr, pr ∈ segsOfPolyline path ∧ e = get_edge_key pr.1 pr.2 := by
  rw [polyEdges_eq_zip]
  unfold segsOfPolyline
  simp [List.mem_map, eq_comm]

theorem rerun_edge_iff (S : List (Point × Point)) (e : Edge) :
    (∃ q ∈ extract_polylines (build_graph
        ((extract_polylines (build_graph S)).flatMap segsOfPolyline)),
      e ∈ polyEdges q) ↔
    (∃ q ∈ extract_polylines (build_graph S), e ∈ polyEdges q) := by
  rw [edge_cover _ (keysNodup_build
    ((extract_polylines (build_graph S)).flatMap segsOfPolyline)) e,
    mem_EdgeSetOf_build]
  constructor
  · rintro ⟨p, q, hm, hne, rfl⟩
    obtain ⟨path, hpath, hpr⟩ := List.mem_flatMap.1 hm
    exact ⟨path, hpath, polyEdges_mem_iff.2 ⟨(p, q), hpr, rfl⟩⟩
  · rintro ⟨path, hpath, he⟩
    obtain ⟨pr, hpr, rfl⟩ := polyEdges_mem_iff.1 he
    refine ⟨pr.1, pr.2, ?_, ?_, rfl⟩
    · exact List.mem_flatMap.2 ⟨path, hpath, by simpa using hpr⟩
    · exact chain'_zip_mem (extract_chain_ne S path hpath)
        (show (pr.1, pr.2) ∈ path.zip path.tail from by simpa using hpr)

/-! ## The claims -/

/-- Claim C1: for every input segment list and the graph built from it, the
union of the edge keys implied by consecutive point pairs across all polylines
returned by `extract_polylines` equals exactly the set of edge keys of the
built graph (no omission), and no edge key is shared by two distinct output
polylines (no duplication). -/
theorem claim_C1 (S : List (Point × Point)) :
    (∀ e : Edge,
      (∃ path ∈ extract_polylines (build_graph S), e ∈ polyEdges path) ↔
        e ∈ EdgeSetOf (build_graph S)) ∧
    (extract_polylines (build_graph S)).Pairwise Disj := by
  obtain ⟨_, hpw, _, _⟩ := extract_inv (build_graph S)
  exact ⟨fun e => edge_cover _ (keysNodup_build S) e, hpw⟩

/-- Claim C2: on every finite graph (a dict, hence with duplicate-free keys),
every `trace_path` call terminates — the fuelled loop always returns `some` —
and when `extract_polylines` returns after Phase 3, every edge key of the
graph is present in the visited-edge set. -/
theorem claim_C2 (g : Graph) (hnd : (g.map (fun ent => ent.1)).Nodup) :
    (∀ eps js s v, (trace_path_run g eps js s v).isSome = true) ∧
    (∀ e ∈ EdgeSetOf g, e ∈ (extract_full g).2) :=
  ⟨fun eps js s v => trace_run_isSome g eps js s v, extract_covers g hnd⟩

/-- Claim C2 witness: the coverage post-condition evaluated on the simple
chain input. -/
theorem claim_C2_witness :
    (trace_path_run (build_graph chainS) [] [] (0, 0) []).isSome = true ∧
    get_edge_key (0, 0) (1, 0) ∈ (extract_full (build_graph chainS)).2 :=
  ⟨(claim_C2 (build_graph chainS) (by decide)).1 [] [] (0, 0) [],
   (claim_C2 (build_graph chainS) (by decide)).2 _ (by decide)⟩

/-- Claim C3 counterexample: two retraced copies of the same segment are both
kept in the neighbor lists (each endpoint has degree 2), yet the whole output
consumes only one edge — the second parallel copy is not independently
visitable, because both copies collide on one canonical edge key in the
visited set. -/
theorem claim_C3_counterexample :
    (lookupG (build_graph parS) (0, 0)).length = 2 ∧
    (lookupG (build_graph parS) (1, 0)).length = 2 ∧
    ¬ 2 ≤ ((extract_polylines (build_graph parS)).flatMap polyEdges).length := by
  decide

/-- Claim C3 amended: duplicate segments between the same two rounded points
are preserved as separate neighbor-list entries and each occupies its own
slot in degree counting, but visited-edge tracking is by canonical edge key,
so all parallel copies share one key and exactly one copy is consumed into
the output. -/
theorem claim_C3_amended :
    lookupG (build_graph parS) (0, 0) = [(1, 0), (1, 0)] ∧
    lookupG (build_graph parS) (1, 0) = [(0, 0), (0, 0)] ∧
    extract_polylines (build_graph parS) = [[(0, 0), (1, 0)]] ∧
    (extract_polylines (build_graph parS)).flatMap polyEdges =
      [get_edge_key (0, 0) (1, 0)] := by
  decide

/-- Claim C4 counterexample: on the branching input the output is not two
polylines. -/
theorem claim_C4_counterexample :
    ¬ (extract_polylines (build_graph branchS)).length = 2 := by
  decide

/-- Claim C4 amended: for the branching input, (1,0) is a degree-3 junction,
there are three degree-1 endpoints, and the output is exactly three
polylines, each running from one endpoint to the junction (1,0), together
covering all 3 edges exactly once. -/
theorem claim_C4_amended :
    extract_polylines (build_graph branchS) =
      [[(0, 0), (1, 0)], [(2, 0), (1, 0)], [(1, 1), (1, 0)]] ∧
    (1, 0) ∈ (find_endpoints_and_junctions (build_graph branchS)).2 ∧
    (lookupG (build_graph branchS) (1, 0)).length = 3 ∧
    (find_endpoints_and_junctions (build_graph branchS)).1 =
      [(0, 0), (2, 0), (1, 1)] ∧
    (extract_polylines (build_graph branchS)).flatMap polyEdges =
      [get_edge_key (0, 0) (1, 0), get_edge_key (1, 0) (2, 0),
        get_edge_key (1, 0) (1, 1)] ∧
    ((extract_polylines (build_graph branchS)).flatMap polyEdges).Nodup := by
  decide

/-- Claim C5: in every polyline output by `extract_polylines` on a built
graph, every point other than the two path ends has degree 2 in the graph,
and in particular is neither in the endpoint set nor in the junction set
(this holds unconditionally, so in particular with the closed-loop escape
clause of the claim). -/
theorem claim_C5 (S : List (Point × Point)) (path : List Point) (x : Point)
    (hp : path ∈ extract_polylines (build_graph S))
    (hx : x ∈ path.tail.dropLast) :
    (lookupG (build_graph S) x).length = 2 ∧
    ¬ x ∈ (find_endpoints_and_junctions (build_graph S)).1 ∧
    ¬ x ∈ (find_endpoints_and_junctions (build_graph S)).2 :=
  interior_degree S path x hp hx

/-- Claim C5 witness: the interior point (1,0) of the chain's single output
polyline has degree 2 and is neither endpoint nor junction. -/
theorem claim_C5_witness :
    (lookupG (build_graph chainS) (1, 0)).length = 2 ∧
    ¬ (1, 0) ∈ (find_endpoints_and_junctions (build_graph chainS)).1 ∧
    ¬ (1, 0) ∈ (find_endpoints_and_junctions (build_graph chainS)).2 :=
  claim_C5 chainS [(0, 0), (1, 0), (2, 0), (3, 0)] (1, 0) (by decide) (by decide)

/-- Claim C6 counterexample: one degenerate segment leaves zero usable
segments after filtering (the built graph is empty), yet the core does not
report "nothing to simplify" — it returns success, with an output document
holding zero polylines. -/
theorem claim_C6_counterexample :
    build_graph degS = [] ∧
    simplify_core degS = Except.ok ([], ⟨1, 0, 0, 0, 0, 0⟩) :=
  ⟨rfl, rfl⟩

/-- Claim C6 amended: the "nothing to simplify" condition is reported exactly
when the raw segment list is empty — the check precedes degeneracy
filtering — and every nonempty input (even all-degenerate) succeeds and
produces an output. -/
theorem claim_C6_amended (segs : List (Point × Point)) :
    (segs = [] → simplify_core segs =
      Except.error ("No LINE entities found. Nothing to simplify.")) ∧
    (¬ segs = [] → ∃ r, simplify_core segs = Except.ok r) := by
  constructor
  · intro h
    subst h
    rfl
  · intro h
    have hlen : ¬ (segs.length == 0) = true := by
      simp only [beq_iff_eq, List.length_eq_zero]
      exact h
    unfold simplify_core
    rw [if_neg hlen]
    exact ⟨_, rfl⟩

/-- Claim C6 witness: the amended behavior evaluated at the empty input and
at the single-degenerate-segment input. -/
theorem claim_C6_witness :
    simplify_core ([] : List (Point × Point)) =
      Except.error ("No LINE entities found. Nothing to simplify.") ∧
    ∃ r, simplify_core degS = Except.ok r :=
  ⟨(claim_C6_amended []).1 rfl, (claim_C6_amended degS).2 (by decide)⟩

/-- Claim C7 counterexample: when the polyline count is zero the statistics
still carry the numeric value 0 for the ratio field, whereas the spec's
statistics surface leaves the ratio undefined/omitted (`none`). -/
theorem claim_C7_counterexample :
    simplify_core degS = Except.ok ([], ⟨1, 0, 0, 0, 0, 0⟩) ∧
    reductionRatioSpec 1 0 = none :=
  ⟨rfl, rfl⟩

/-- Claim C7 amended: the statistics returned by the core report the ratio as
original segment count divided by polyline count whenever the polyline count
is nonzero, and report the numeric value 0 — not an omitted value — when the
polyline count is zero. -/
theorem claim_C7_amended (segs : List (Point × Point)) (ps : List (List Point))
    (st : Stats) (h : simplify_core segs = Except.ok (ps, st)) :
    (st.polyline_count = 0 → st.reduction_factor = 0) ∧
    (¬ st.polyline_count = 0 →
      st.reduction_factor = (st.original_line_count : ℚ) / (st.polyline_count : ℚ)) := by
  unfold simplify_core at h
  by_cases hlen : (segs.length == 0) = true
  · rw [if_pos hlen] at h
    exact absurd h (by simp)
  · rw [if_neg hlen] at h
    have h2 := Except.ok.inj h
    injection h2 with h3 h4
    subst h4
    constructor
    · intro hz
      show (if (extract_polylines (build_graph segs)).length = 0 then (0 : ℚ)
        else ((segs.length : ℚ) / ((extract_polylines (build_graph segs)).length : ℚ))) = 0
      rw [if_pos hz]
    · intro hne
      show (if (extract_polylines (build_graph segs)).length = 0 then (0 : ℚ)
        else ((segs.length : ℚ) / ((extract_polylines (build_graph segs)).length : ℚ))) =
        ((segs.length : ℚ) / ((extract_polylines (build_graph segs)).length : ℚ))
      rw [if_neg hne]

/-- Claim C7 witness: the amended ratio law evaluated on the chain input,
which yields one polyline from three segments. -/
theorem claim_C7_witness :
    (⟨3, 4, 2, 0, 1, ((3 : Nat) : ℚ) / ((1 : Nat) : ℚ)⟩ : Stats).reduction_factor =
      (((⟨3, 4, 2, 0, 1, ((3 : Nat) : ℚ) / ((1 : Nat) : ℚ)⟩ : Stats).original_line_count : ℚ) /
        ((⟨3, 4, 2, 0, 1, ((3 : Nat) : ℚ) / ((1 : Nat) : ℚ)⟩ : Stats).polyline_count : ℚ)) :=
  (claim_C7_amended chainS [[(0, 0), (1, 0), (2, 0), (3, 0)]]
    ⟨3, 4, 2, 0, 1, ((3 : Nat) : ℚ) / ((1 : Nat) : ℚ)⟩ (by rfl)).2 (by decide)

/-- Claim C8: the four segments of a closed square, all points at degree 2,
produce exactly one polyline of 5 points whose first point repeats as its
last, and the polyline is discovered in Phase 3: Phase 1 (endpoints) and
Phase 2 (junctions) both leave the state empty. -/
theorem claim_C8 :
    extract_polylines (build_graph squareS) =
      [[(0, 0), (1, 0), (1, 1), (0, 1), (0, 0)]] ∧
    (extract_polylines (build_graph squareS)).map (fun path => path.length) = [5] ∧
    (extract_polylines (build_graph squareS)).map (fun path => path.head?) =
      (extract_polylines (build_graph squareS)).map (fun path => path.getLast?) ∧
    (∀ ent ∈ build_graph squareS, ent.2.length = 2) ∧
    runPhase (build_graph squareS)
      (find_endpoints_and_junctions (build_graph squareS)).1
      (find_endpoints_and_junctions (build_graph squareS)).2
      (find_endpoints_and_junctions (build_graph squareS)).1 ([], []) = ([], []) ∧
    runPhase (build_graph squareS)
      (find_endpoints_and_junctions (build_graph squareS)).1
      (find_endpoints_and_junctions (build_graph squareS)).2
      (find_endpoints_and_junctions (build_graph squareS)).2 ([], []) = ([], []) := by
  decide

/-- Claim C9: re-running graph construction and extraction on the first
run's own output — each output polyline's consecutive point pairs taken as
input segments — yields polylines whose implied edge set equals the first
output's implied edge set: nothing is merged or lost. -/
theorem claim_C9 (S : List (Point × Point)) (e : Edge) :
    (∃ q ∈ extract_polylines (build_graph
        ((extract_polylines (build_graph S)).flatMap segsOfPolyline)),
      e ∈ polyEdges q) ↔
    (∃ q ∈ extract_polylines (build_graph S), e ∈ polyEdges q) :=
  rerun_edge_iff S e

/-- Claim C10: every graph built by `build_graph` is a well-formed undirected
multigraph without self-loops — B occurs in A's neighbor list exactly as
often as A occurs in B's, and no point neighbors itself — and consequently
consecutive points of every output polyline are distinct. -/
theorem claim_C10 (S : List (Point × Point)) :
    (∀ a b, countOcc b (lookupG (build_graph S) a) =
      countOcc a (lookupG (build_graph S) b)) ∧
    (∀ a, ¬ a ∈ lookupG (build_graph S) a) ∧
    (∀ path ∈ extract_polylines (build_graph S),
      List.Chain' (fun a b => ¬ a = b) path) :=
  ⟨build_sym S, build_noself S, fun path hp => extract_chain_ne S path hp⟩

/-- Claim C10 witness: symmetry and consecutive-distinctness evaluated on
the chain input. -/
theorem claim_C10_witness :
    countOcc (1, 0) (lookupG (build_graph chainS) (0, 0)) =
      countOcc (0, 0) (lookupG (build_graph chainS) (1, 0)) ∧
    List.Chain' (fun a b => ¬ a = b) ([(0, 0), (1, 0), (2, 0), (3, 0)] : List Point) :=
  ⟨(claim_C10 chainS).1 (0, 0) (1, 0),
   (claim_C10 chainS).2.2 [(0, 0), (1, 0), (2, 0), (3, 0)] (by decide)⟩

end DrawSimplifier
